import Mathlib

/-!
Verification of the commit-message generation pipeline of the `my-ai-agent`
repository against its natural-language specification.

The development shallowly embeds the pipeline's TypeScript sources:

* `src/tools/git/diff-parser.ts` — unified-diff parsing and sanitization
  (`parseDiff`, `parseChunk`, `determineChangeType`, `sanitizeLine`,
  `shouldExcludeFile`, `getStagedDiff`);
* `src/tools/llm/prompt-templates.ts` — prompt constants,
  `FALLBACK_COMMIT_TEMPLATE` and `generateCacheKey`;
* `src/tools/cache/commit-cache.ts` — the LFU `CommitCache`;
* `src/tools/errors/commit-errors.ts` — the error taxonomy;
* `src/tools/git/commit-analyzer.ts` — the orchestrator `analyzeCommit`
  together with its timeout/retry wrappers `withTimeout` / `withRetries`.

Conventions of the embedding:

* JavaScript strings are Lean `String`s, processed as their `List Char` data
  (JS indexes UTF-16 code units; for the code-point range exercised here the
  two coincide).
* Mutable state (the cache's `Map`, mutation of an argument array) is passed
  explicitly: the JS `Map` becomes an association list in insertion-iteration
  order, and a function that mutates an argument returns the argument's
  post-call contents alongside its result.
* `async` functions are represented by the settled outcome of their promise
  (`Except` of the thrown error or the resolved value).  The real-time
  behaviour of `withTimeout`/`withRetries` (`Promise.race` against a
  `setTimeout` timer, exponential-backoff sleeps) is embedded as an explicit
  timeline: each underlying model call is described by its duration and
  settled outcome, and the wrappers compute the point in time at which the
  composite promise settles.
* Scanning loops that consume a variable number of characters per step are
  written with an explicit fuel argument; every caller passes the input
  length (plus one), which every step's consumption of at least one character
  makes sufficient, keeping all definitions structurally recursive and
  kernel-evaluable.
-/

/-! ## Data model (`src/tools/llm/types.ts`, `src/tools/git/diff-parser.ts`) -/

/-- The `ChangeType` union of `src/tools/llm/types.ts`. -/
inductive ChangeType where
  | feat | fix | refactor | docs | test | chore | style | perf
deriving DecidableEq, Repr

/-- Conventional-commit rendering of a `ChangeType` value (the TS string). -/
def changeTypeStr : ChangeType → String
  | .feat => "feat" | .fix => "fix" | .refactor => "refactor" | .docs => "docs"
  | .test => "test" | .chore => "chore" | .style => "style" | .perf => "perf"

/-- `ChangeCategory` of `src/tools/llm/types.ts`. -/
structure ChangeCategory where
  type : ChangeType
  scope : Option String
  description : String
deriving DecidableEq, Repr

/-- `CommitAnalysis` of `src/tools/llm/types.ts`. -/
structure CommitAnalysis where
  files : List String
  summary : String
  impactedAreas : List String
  changeTypes : List ChangeCategory
  breakingChanges : Bool
deriving DecidableEq, Repr

/-- `LLMResponse` of `src/tools/llm/types.ts`. -/
structure LLMResponse where
  commitMessage : String
  type : ChangeType
  scope : Option String
  breaking : Bool
  details : Option String
deriving DecidableEq, Repr

/-- The `changeType` union of a `ParsedDiff` (`diff-parser.ts`). -/
inductive DiffChangeType where
  | modified | added | deleted
deriving DecidableEq, Repr

/-- `ParsedDiff` of `src/tools/git/diff-parser.ts`. -/
structure ParsedDiff where
  filePath : String
  additions : List String
  deletions : List String
  changeType : DiffChangeType
deriving DecidableEq, Repr

/-- Thrown JS error values, one constructor per distinguished class of
`src/tools/errors/commit-errors.ts` plus `plain` for a bare `new Error(msg)`
(as thrown by `withTimeout` and by `getStagedDiff`'s wrapper). `GitError` is
declared in the source but never constructed by the pipeline. -/
inductive JsErr where
  | plain (msg : String)
  | noChanges
  | llmTimeout (timeoutMs : Nat)
  | invalidResponse (details : String)
  | gitError (command : String) (error : String)
deriving DecidableEq, Repr

deriving instance DecidableEq for Except

/-! ## Character and string utilities

The JS string operations used by the sources (`split`, `trim`, `slice`,
regex scans) are implemented over `List Char`. -/

/-- Decide whether `p` is a leading prefix of `l`. -/
def startsWithL : List Char → List Char → Bool
  | [], _ => true
  | _ :: _, [] => false
  | p :: ps, c :: cs => p = c && startsWithL ps cs

/-- One step of JS `String.prototype.split` with a non-empty string
separator: scan left to right, cutting at every occurrence of `sep`;
`acc` holds the reversed characters of the current piece.  Fuel is the
number of remaining scan steps; each step consumes at least one input
character, so `input.length + 1` is always enough. -/
def splitOnGo (sep : List Char) : Nat → List Char → List Char → List (List Char)
  | 0, acc, l => [acc.reverse ++ l]
  | _ + 1, acc, [] => [acc.reverse]
  | fuel + 1, acc, c :: rest =>
    if startsWithL sep (c :: rest) then
      acc.reverse :: splitOnGo sep fuel [] (List.drop sep.length (c :: rest))
    else
      splitOnGo sep fuel (c :: acc) rest

/-- JS `s.split(sep)` for a non-empty `sep` (the only way the sources call
it); an empty separator is returned unsplit, a case the sources never hit. -/
def splitOnL (sep l : List Char) : List (List Char) :=
  if sep.isEmpty then [l] else splitOnGo sep (l.length + 1) [] l

/-- The JS `\s` / `trim` whitespace set (ECMAScript WhiteSpace and
LineTerminator code points). -/
def jsWhitespace (c : Char) : Bool :=
  c = ' ' || c = '\t' || c = '\n' || c.toNat = 11 || c.toNat = 12 || c = '\r' ||
  c.toNat = 0xa0 || c.toNat = 0x1680 || (0x2000 ≤ c.toNat && c.toNat ≤ 0x200a) ||
  c.toNat = 0x2028 || c.toNat = 0x2029 || c.toNat = 0x202f || c.toNat = 0x205f ||
  c.toNat = 0x3000 || c.toNat = 0xfeff

/-- JS `s.trim()`: strip leading and trailing whitespace. -/
def jsTrim (l : List Char) : List Char :=
  ((l.dropWhile jsWhitespace).reverse.dropWhile jsWhitespace).reverse

/-- ECMAScript LineTerminator code points (what `.` in a regex never
matches). -/
def lineTerminator (c : Char) : Bool :=
  c = '\n' || c = '\r' || c.toNat = 0x2028 || c.toNat = 0x2029

/-- ASCII letter or digit, the regex class `[a-zA-Z0-9]`. -/
def isAlnum (c : Char) : Bool :=
  ('a' ≤ c && c ≤ 'z') || ('A' ≤ c && c ≤ 'Z') || ('0' ≤ c && c ≤ '9')

/-- ASCII letter, the regex class `[a-zA-Z]`. -/
def isAlpha (c : Char) : Bool :=
  ('a' ≤ c && c ≤ 'z') || ('A' ≤ c && c ≤ 'Z')

/-- A single or double quote, the regex class `['"]`. -/
def isQuote (c : Char) : Bool := c = '\'' || c = '"'

/-- JS `Array.prototype.join(sep)` over strings (empty list joins to `""`). -/
def joinSepStr (sep : String) : List String → String
  | [] => ""
  | [s] => s
  | s :: rest => s ++ sep ++ joinSepStr sep rest

/-! ## Sanitization (`sanitizeLine` of `diff-parser.ts`)

`sanitizeLine` applies three global regex replacements and a trim, in
source order.  Each replacement is embedded as a left-to-right scanner that
attempts the regex match at every position (leftmost-first semantics) and,
on a match, emits the replacement and resumes after the matched text. -/

/-- Match of `(['"])?[a-zA-Z0-9]{32,}(['"])?` anchored at the head of `l`:
an optional quote, a maximal run of at least 32 alphanumerics (greedy
`{32,}` takes the whole run), and an optional closing quote.  Returns the
remainder after the match. -/
def longTokenMatch (l : List Char) : Option (List Char) :=
  let l1 := match l with
    | c :: rest => if isQuote c then rest else l
    | [] => l
  let run := l1.takeWhile isAlnum
  if 32 ≤ run.length then
    let l2 := l1.drop run.length
    match l2 with
    | c :: rest => if isQuote c then some rest else some l2
    | [] => some l2
  else none

/-- Scanner for `.replace(/(['"])?[a-zA-Z0-9]{32,}(['"])?/g, '[REDACTED]')`. -/
def redactLongGo : Nat → List Char → List Char
  | 0, l => l
  | _ + 1, [] => []
  | fuel + 1, c :: rest =>
    match longTokenMatch (c :: rest) with
    | some rest' => "[REDACTED]".data ++ redactLongGo fuel rest'
    | none => c :: redactLongGo fuel rest

/-- A character admissible in the password value, the class `[^'")\s]`. -/
def pwValueChar (c : Char) : Bool := !(isQuote c || c = ')' || jsWhitespace c)

/-- Match of the group `(['"]?\s*[:=]\s*['"]?)` up to and including the
separator `[:=]`; returns the matched characters and the remainder.  When
the head is a quote the regex must continue `\s*[:=]` after it — dropping
the optional quote on backtracking cannot succeed, because a quote is
neither whitespace nor `[:=]`. -/
def pwSep (l : List Char) : Option (List Char × List Char) :=
  match l with
  | [] => none
  | c :: rest =>
    if isQuote c then
      let ws := rest.takeWhile jsWhitespace
      match rest.drop ws.length with
      | d :: r3 => if d = ':' || d = '=' then some (c :: (ws ++ [d]), r3) else none
      | [] => none
    else
      let ws := l.takeWhile jsWhitespace
      match l.drop ws.length with
      | d :: r3 => if d = ':' || d = '=' then some (ws ++ [d], r3) else none
      | [] => none

/-- Match of the tail `\s*['"]?` of the capture group followed by a
mandatory first value character: the optional quote is taken only when a
`[^'")\s]` character follows it (otherwise every backtracking alternative
fails, since a quote or whitespace can never start the value). Returns the
group characters matched here and the remainder starting at the value. -/
def pwValue (l : List Char) : Option (List Char × List Char) :=
  let ws := l.takeWhile jsWhitespace
  match l.drop ws.length with
  | [] => none
  | c :: rest =>
    if isQuote c then
      match rest with
      | d :: _ => if pwValueChar d then some (ws ++ [c], rest) else none
      | [] => none
    else if pwValueChar c then some (ws, c :: rest)
    else none

/-- Full match of `password(['"]?\s*[:=]\s*['"]?)[^'")\s]+` starting right
after the case-insensitive literal `password`; returns the capture group
and the remainder after the greedy value run. -/
def pwMatch (l : List Char) : Option (List Char × List Char) :=
  match pwSep l with
  | none => none
  | some (g1, r1) =>
    match pwValue r1 with
    | none => none
    | some (g2, r2) =>
      let v := r2.takeWhile pwValueChar
      some (g1 ++ g2, r2.drop v.length)

/-- Case-insensitive comparison of `l` against the lowercase literal `p`. -/
def startsWithCI : List Char → List Char → Bool
  | [], _ => true
  | _ :: _, [] => false
  | p :: ps, c :: cs => p = c.toLower && startsWithCI ps cs

/-- Scanner for
`.replace(/password(['"]?\s*[:=]\s*['"]?)[^'")\s]+/gi, 'password$1[REDACTED]')`.
The replacement writes the literal lowercase `password` and re-emits the
capture group. -/
def redactPasswordGo : Nat → List Char → List Char
  | 0, l => l
  | _ + 1, [] => []
  | fuel + 1, c :: rest =>
    if startsWithCI "password".data (c :: rest) then
      match pwMatch ((c :: rest).drop 8) with
      | some (g, r') => ("password".data ++ g ++ "[REDACTED]".data) ++ redactPasswordGo fuel r'
      | none => c :: redactPasswordGo fuel rest
    else c :: redactPasswordGo fuel rest

/-- The local-part class `[a-zA-Z0-9._%+-]` of the email regex. -/
def emailLocalChar (c : Char) : Bool :=
  isAlnum c || c = '.' || c = '_' || c = '%' || c = '+' || c = '-'

/-- The domain class `[a-zA-Z0-9.-]` of the email regex. -/
def emailDomainChar (c : Char) : Bool := isAlnum c || c = '.' || c = '-'

/-- Dot positions `k` inside the maximal domain run at which the regex tail
`\.[a-zA-Z]{2,}` can match after a non-empty `[a-zA-Z0-9.-]+`: the dot must
leave at least one domain character before it and two letters after it. -/
def emailDotKs (dom : List Char) : List Nat :=
  (List.range dom.length).filter fun k =>
    decide (1 ≤ k) && (dom.drop k).headD ' ' = '.' &&
    (match (dom.drop (k + 1)).take 2 with
     | [d1, d2] => isAlpha d1 && isAlpha d2
     | _ => false)

/-- Match of `[a-zA-Z0-9._%+-]+@[a-zA-Z0-9.-]+\.[a-zA-Z]{2,}` anchored at
the head of `l` (the head is known to be a local-part character).  Greedy
backtracking places the final `\.` at the last admissible dot of the
maximal domain run, then `{2,}` greedily takes the following letter run.
Returns the remainder after the match. -/
def emailMatch (l : List Char) : Option (List Char) :=
  let run := l.takeWhile emailLocalChar
  match l.drop run.length with
  | '@' :: r1 =>
    let dom := r1.takeWhile emailDomainChar
    match (emailDotKs dom).getLast? with
    | none => none
    | some k =>
      let tail := dom.drop (k + 1)
      let alphas := tail.takeWhile isAlpha
      some (tail.drop alphas.length ++ r1.drop dom.length)
  | _ => none

/-- Scanner for
`.replace(/[a-zA-Z0-9._%+-]+@[a-zA-Z0-9.-]+\.[a-zA-Z]{2,}/g, '[EMAIL]')`. -/
def redactEmailGo : Nat → List Char → List Char
  | 0, l => l
  | _ + 1, [] => []
  | fuel + 1, c :: rest =>
    if emailLocalChar c then
      match emailMatch (c :: rest) with
      | some rest' => "[EMAIL]".data ++ redactEmailGo fuel rest'
      | none => c :: redactEmailGo fuel rest
    else c :: redactEmailGo fuel rest

/-- `sanitizeLine` of `diff-parser.ts`: the three redactions in source
order, then `trim()`. -/
def sanitizeLine (l : List Char) : String :=
  let s1 := redactLongGo l.length l
  let s2 := redactPasswordGo s1.length s1
  let s3 := redactEmailGo s2.length s2
  String.mk (jsTrim s3)

/-! ## Exclusion globs (`shouldExcludeFile` of `diff-parser.ts`)

The source matches each exclude pattern with `minimatch`.  The embedding
covers the pattern language the defaults use — literal characters, `?` and
a `*` that does not cross `/` and does not match a leading dot — which is
`minimatch`'s behaviour on patterns without globstars or extglobs. -/

/-- Wildcard match of one glob segment against one path segment; fuel
bounds the recursion by the combined length. -/
def segMatchF : Nat → List Char → List Char → Bool
  | 0, _, _ => false
  | _ + 1, [], [] => true
  | _ + 1, [], _ :: _ => false
  | fuel + 1, p :: ps, s =>
    if p = '*' then
      segMatchF fuel ps s ||
        (match s with
         | [] => false
         | _ :: st => segMatchF fuel (p :: ps) st)
    else
      match s with
      | [] => false
      | c :: st => (p = '?' || p = c) && segMatchF fuel ps st

/-- Match one glob segment, applying `minimatch`'s default `dot:false`
rule: a leading wildcard never matches a segment starting with `.`. -/
def segMatches (p s : List Char) : Bool :=
  match p, s with
  | pc :: _, '.' :: _ =>
    if pc = '*' || pc = '?' then false
    else segMatchF (p.length + s.length + 1) p s
  | _, _ => segMatchF (p.length + s.length + 1) p s

/-- Full glob match: split pattern and path on `/` and match segmentwise. -/
def globMatch (pattern path : String) : Bool :=
  let ps := splitOnL ['/'] pattern.data
  let ss := splitOnL ['/'] path.data
  ps.length = ss.length && (List.zip ps ss).all fun (p, s) => segMatches p s

/-- `shouldExcludeFile` of `diff-parser.ts`:
`patterns.some(pattern => minimatch(filePath, pattern))`. -/
def shouldExcludeFile (filePath : String) (patterns : List String) : Bool :=
  patterns.any fun pattern => globMatch pattern filePath

/-! ## Diff parsing (`parseDiff` of `diff-parser.ts`) -/

/-- `DiffParseOptions` of `diff-parser.ts`; `none` is an absent key. -/
structure DiffParseOptions where
  maxLinesPerFile : Option Nat
  includeContext : Option Bool
  excludePatterns : Option (List String)
deriving DecidableEq, Repr

/-- The empty options object `{}` (what `getStagedDiff` passes). -/
def emptyOpts : DiffParseOptions := ⟨none, none, none⟩

/-- `DEFAULT_OPTIONS` of `diff-parser.ts`. -/
def defaultExcludePatterns : List String := ["package-lock.json", "yarn.lock", "*.log"]

/-- The result of `{ ...DEFAULT_OPTIONS, ...options }`: every field
resolved against its default. -/
structure MergedOptions where
  maxLinesPerFile : Option Nat
  excludePatterns : List String
deriving DecidableEq, Repr

/-- Spread-merge of caller options over `DEFAULT_OPTIONS`
(`maxLinesPerFile: 50`, `includeContext: true`, the lockfile/log exclude
list); `includeContext` is unused by parsing and dropped here. -/
def mergeOpts (o : DiffParseOptions) : MergedOptions :=
  ⟨(o.maxLinesPerFile).orElse fun _ => some 50,
   (o.excludePatterns).getD defaultExcludePatterns⟩

/-- The cap test `additions.length < (maxLines ?? Infinity)`. -/
def underCap (len : Nat) (maxLines : Option Nat) : Bool :=
  match maxLines with
  | some n => len < n
  | none => true

/-- The loop body of `parseChunk`: classify each line by its leading
character (`+` not `+++` / `-` not `---`), strip the marker, sanitize, and
append while under the per-file cap. -/
def parseChunkGo (maxLines : Option Nat) (acc : List String × List String) :
    List (List Char) → List String × List String
  | [] => acc
  | l :: rest =>
    if startsWithL ['+'] l && !startsWithL ['+', '+', '+'] l then
      if underCap acc.1.length maxLines then
        parseChunkGo maxLines (acc.1 ++ [sanitizeLine (l.drop 1)], acc.2) rest
      else parseChunkGo maxLines acc rest
    else if startsWithL ['-'] l && !startsWithL ['-', '-', '-'] l then
      if underCap acc.2.length maxLines then
        parseChunkGo maxLines (acc.1, acc.2 ++ [sanitizeLine (l.drop 1)]) rest
      else parseChunkGo maxLines acc rest
    else parseChunkGo maxLines acc rest

/-- `parseChunk` of `diff-parser.ts`. -/
def parseChunk (lines : List (List Char)) (maxLines : Option Nat) :
    List String × List String :=
  parseChunkGo maxLines ([], []) lines

/-- `determineChangeType` of `diff-parser.ts`. -/
def determineChangeType (additions deletions : List String) : DiffChangeType :=
  if 0 < additions.length && deletions.length = 0 then .added
  else if additions.length = 0 && 0 < deletions.length then .deleted
  else .modified

/-- Positions `j` in `l` at which the literal ` b/` of the path regex
`a\/(.+) b\//` can close a valid capture: the capture `l.take j` must be
non-empty and free of line terminators (which `.` never matches). -/
def bMarkerKs (l : List Char) : List Nat :=
  (List.range l.length).filter fun j =>
    decide (1 ≤ j) && startsWithL " b/".data (l.drop j) &&
    ((l.take j).all fun c => !lineTerminator c)

/-- The greedy capture of `a\/(.+) b\//` starting right after an `a/`
marker: `(.+)` greedily extends to the last admissible ` b/`. -/
def pathCapture (l : List Char) : Option (List Char) :=
  match (bMarkerKs l).getLast? with
  | none => none
  | some j => some (l.take j)

/-- Leftmost-first scan of `line.match(/a\/(.+) b\//)`: the match starts at
the first `a/` from which a valid capture closes. -/
def extractGo : Nat → List Char → Option (List Char)
  | 0, _ => none
  | _ + 1, [] => none
  | fuel + 1, c :: rest =>
    if c = 'a' then
      match rest with
      | '/' :: r2 =>
        match pathCapture r2 with
        | some p => some p
        | none => extractGo fuel rest
      | _ => extractGo fuel rest
    else extractGo fuel rest

/-- `lines[0].match(/a\/(.+) b\//)?.[1]`, the file path of a chunk. -/
def extractFilePath (l : List Char) : Option (List Char) :=
  extractGo l.length l

/-- The per-chunk body of `parseDiff`'s loop: `none` when the chunk is
skipped (blank, no path, or excluded), otherwise the `ParsedDiff` record
pushed for it. -/
def chunkRecord (opts : MergedOptions) (chunk : List Char) : Option ParsedDiff :=
  if (jsTrim chunk).isEmpty then none
  else
    let lines := splitOnL ['\n'] chunk
    let fp := (extractFilePath (lines.headD [])).getD []
    if fp.isEmpty then none
    else if shouldExcludeFile (String.mk fp) opts.excludePatterns then none
    else
      let parts := parseChunk lines opts.maxLinesPerFile
      some ⟨String.mk fp, parts.1, parts.2, determineChangeType parts.1 parts.2⟩

/-- `parseDiff` of `diff-parser.ts`: split on the `diff --git` boundary and
collect a record per retained chunk.  The source's `parseDiff` is total on
strings — it performs no input validation and never throws. -/
def parseDiff (diff : String) (options : DiffParseOptions) : List ParsedDiff :=
  (splitOnL "diff --git".data diff.data).filterMap (chunkRecord (mergeOpts options))

/-- A chunk counted as a file block: non-blank, with a non-empty extracted
path that no exclude pattern matches.  This mirrors the tests `parseDiff`
applies before pushing a record, stated independently of `chunkRecord`. -/
def isFileBlock (opts : MergedOptions) (chunk : List Char) : Bool :=
  !(jsTrim chunk).isEmpty &&
    (let fp := (extractFilePath ((splitOnL ['\n'] chunk).headD [])).getD []
     !fp.isEmpty && !shouldExcludeFile (String.mk fp) opts.excludePatterns)

/-- The number of file blocks a diff text contains under given options. -/
def fileBlockCount (text : String) (options : DiffParseOptions) : Nat :=
  ((splitOnL "diff --git".data text.data).filter (isFileBlock (mergeOpts options))).length

/-! ## Prompt templates (`src/tools/llm/prompt-templates.ts`)

The two prompt constants are reproduced with literal braces written as
`\x7b`/`\x7d`; `{diff}`, `{files}` and `{changes}` are the source's own
placeholder tokens. -/

/-- `COMMIT_ANALYSIS_PROMPT` of `prompt-templates.ts`. -/
def COMMIT_ANALYSIS_PROMPT : String :=
  "Analyze the following git changes and generate a conventional commit message.\nFocus on the main purpose of the changes and categorize them appropriately.\n\nChanges:\n{diff}\n\nModified files:\n{files}\n\nGenerate a commit message following these rules:\n1. Use conventional commit format: type(scope): description\n2. Keep the first line under 72 characters\n3. Use present tense (\"add\" not \"added\")\n4. Be descriptive but concise\n5. Include scope if changes are isolated to specific area\n6. Mark breaking changes with BREAKING CHANGE: prefix\n\nResponse must be valid JSON matching this structure:\n\x7b\n  \"type\": \"feat|fix|refactor|docs|test|chore|style|perf\",\n  \"scope\": \"optional area affected\",\n  \"commitMessage\": \"full commit message\",\n  \"breaking\": boolean,\n  \"details\": \"optional detailed explanation\"\n\x7d"

/-- `MULTI_CHANGE_PROMPT` of `prompt-templates.ts`. -/
def MULTI_CHANGE_PROMPT : String :=
  "Analyze multiple changes and generate a commit message that covers all changes:\n\n{changes}\n\nGroup related changes and generate a commit message that:\n1. Uses the most significant change type\n2. Lists other changes in the body\n3. Separates different changes with blank lines\n4. Marks any breaking changes"

/-- `FALLBACK_COMMIT_TEMPLATE` of `prompt-templates.ts`:
the deterministic message `` `${type}: update ${files.join(', ')}` ``. -/
def FALLBACK_COMMIT_TEMPLATE (files : List String) (type : ChangeType) : String :=
  changeTypeStr type ++ ": update " ++ joinSepStr ", " files

/-- Lexicographic comparison of strings by code point — the order JS
`Array.prototype.sort()`'s default comparator imposes on these strings
(code units and code points agree below U+10000, which covers file paths). -/
def charListLe : List Char → List Char → Bool
  | [], _ => true
  | _ :: _, [] => false
  | a :: as, b :: bs =>
    if a.toNat < b.toNat then true
    else if b.toNat < a.toNat then false
    else charListLe as bs

/-- The sort relation of `files.sort()`. -/
def strLe (a b : String) : Prop := charListLe a.data b.data = true

instance : DecidableRel strLe := fun a b => by
  unfold strLe
  infer_instance

/-- The sorted array `files.sort()` produces (and leaves behind in the
caller's variable): the lexicographically sorted permutation of `files`.
JS engines sort in place with a stable algorithm; for the default string
comparator any stable or unstable sorted permutation is this same list. -/
def jsSortStrings (files : List String) : List String :=
  List.insertionSort strLe files

/-- The `.replace(/\s+/g, ' ')` scanner: collapse every maximal whitespace
run to a single space. -/
def collapseWsGo : Nat → List Char → List Char
  | 0, l => l
  | _ + 1, [] => []
  | fuel + 1, c :: rest =>
    if jsWhitespace c then
      ' ' :: collapseWsGo fuel (rest.drop (rest.takeWhile jsWhitespace).length)
    else c :: collapseWsGo fuel rest

/-- `diff.slice(0, 100).replace(/\s+/g, ' ')` of `generateCacheKey`. -/
def diffPreview (diff : String) : String :=
  let sliced := diff.data.take 100
  String.mk (collapseWsGo sliced.length sliced)

/-- `generateCacheKey` of `prompt-templates.ts`, with its effect on the
caller's array made explicit: `files.sort()` sorts the argument array in
place, so the pair returned is (the derived key, the array's post-call
contents). -/
def generateCacheKeyJS (files : List String) (diff : String) : String × List String :=
  let sorted := jsSortStrings files
  (joinSepStr "|" sorted ++ ":" ++ diffPreview diff, sorted)

/-- The key `generateCacheKey` returns. -/
def generateCacheKey (files : List String) (diff : String) : String :=
  (generateCacheKeyJS files diff).1

/-! ## Commit cache (`src/tools/cache/commit-cache.ts`)

The JS `Map` is an association list in insertion-iteration order:
`Map.prototype.set` on an existing key updates the value in place keeping
its position, on a new key appends; `Map.prototype.delete` removes the
entry.  `Date.now()` is an explicit `now : Nat` argument (milliseconds),
and the mutated store is returned alongside each result. -/

/-- `CacheEntry` of `commit-cache.ts`. -/
structure CacheEntry where
  response : LLMResponse
  timestamp : Nat
  hitCount : Nat
deriving DecidableEq, Repr

/-- The `CommitCache` class state: its `Map` contents and the two
constructor-fixed configuration fields. -/
structure CommitCache where
  entries : List (String × CacheEntry)
  maxSize : Nat
  ttlMs : Nat
deriving DecidableEq, Repr

/-- The constructor `new CommitCache(maxSize = 100, ttlHours = 24)`. -/
def CommitCache.make (maxSize ttlHours : Nat) : CommitCache :=
  ⟨[], maxSize, ttlHours * 60 * 60 * 1000⟩

/-- The module-level singleton `commitCache` at process start. -/
def commitCache0 : CommitCache := CommitCache.make 100 24

/-- `Map.prototype.get`: first (only) binding of `key`. -/
def findEntry : List (String × CacheEntry) → String → Option CacheEntry
  | [], _ => none
  | (k, e) :: rest, key => if k = key then some e else findEntry rest key

/-- `Map.prototype.set`: overwrite in place, or append a new binding. -/
def mapSet : List (String × CacheEntry) → String → CacheEntry → List (String × CacheEntry)
  | [], key, v => [(key, v)]
  | (k, e) :: rest, key, v =>
    if k = key then (k, v) :: rest else (k, e) :: mapSet rest key v

/-- `Map.prototype.delete`: drop the binding of `key`. -/
def mapDelete : List (String × CacheEntry) → String → List (String × CacheEntry)
  | [], _ => []
  | (k, e) :: rest, key => if k = key then rest else (k, e) :: mapDelete rest key

/-- The scan of `evictLeastUsed`: fold the entries in iteration order,
keeping the first entry whose `hitCount` is strictly below the best so far
(`minHits` starts at `Infinity`, so the first entry always replaces the
initial `undefined`). -/
def leastUsedGo : Option (String × Nat) → List (String × CacheEntry) → Option (String × Nat)
  | best, [] => best
  | none, (k, e) :: rest => leastUsedGo (some (k, e.hitCount)) rest
  | some (bk, bh), (k, e) :: rest =>
    if e.hitCount < bh then leastUsedGo (some (k, e.hitCount)) rest
    else leastUsedGo (some (bk, bh)) rest

/-- The `leastUsedKey` local of `evictLeastUsed` after the scan. -/
def leastUsedKey (l : List (String × CacheEntry)) : Option String :=
  (leastUsedGo none l).map Prod.fst

/-- `CommitCache.evictLeastUsed`.  The guard `if (leastUsedKey)` is JS
truthiness: it skips the delete not only for `undefined` (empty map) but
also for the empty-string key. -/
def CommitCache.evictLeastUsed (c : CommitCache) : CommitCache :=
  match leastUsedKey c.entries with
  | none => c
  | some k => if k = "" then c else ⟨mapDelete c.entries k, c.maxSize, c.ttlMs⟩

/-- `CommitCache.get` at time `now`: expiry check
`Date.now() - entry.timestamp > this.ttlMs`, then hit bookkeeping
(`hitCount++`, `timestamp = Date.now()`) in place. -/
def CommitCache.get (c : CommitCache) (key : String) (now : Nat) :
    Option LLMResponse × CommitCache :=
  match findEntry c.entries key with
  | none => (none, c)
  | some e =>
    if c.ttlMs < now - e.timestamp then
      (none, ⟨mapDelete c.entries key, c.maxSize, c.ttlMs⟩)
    else
      (some e.response,
       ⟨mapSet c.entries key ⟨e.response, now, e.hitCount + 1⟩, c.maxSize, c.ttlMs⟩)

/-- `CommitCache.set` at time `now`: evict first when
`this.cache.size >= this.maxSize`, then insert with `hitCount: 1`. -/
def CommitCache.set (c : CommitCache) (key : String) (response : LLMResponse)
    (now : Nat) : CommitCache :=
  let c1 := if c.maxSize ≤ c.entries.length then c.evictLeastUsed else c
  ⟨mapSet c1.entries key ⟨response, now, 1⟩, c.maxSize, c.ttlMs⟩

/-! ## Commit analyzer (`src/tools/git/commit-analyzer.ts`)

`analyzeCommit` is embedded as a function of the settled outcomes of its
two collaborators: `gitDiff` is the staged-diff text the version-control
collaborator resolves with (or the message of the error it rejects with —
`simple-git` within one `analyzeCommit` run is deterministic, so the
re-fetch in the fallback branch observes the same outcome), and
`llmOutcome` is the settled outcome of `generateCommitMessage` on the
parsed diffs.  The missing heuristic `inferChangeType` (its definition is
not in the sources, only its call site) is a parameter.  `console.warn` /
`console.error` logging has no observable effect and is dropped. -/

/-- `getStagedDiff` of `diff-parser.ts`: on success parse with `{}`
options; on a collaborator failure throw
`new Error('Failed to get staged diff: ' + error.message)` — a fresh plain
`Error` wrapping the original message, not the original error and not a
`GitError`. -/
def getStagedDiffM (gitDiff : Except String String) : Except JsErr (List ParsedDiff) :=
  match gitDiff with
  | .ok text => .ok (parseDiff text emptyOpts)
  | .error msg => .error (.plain ("Failed to get staged diff: " ++ msg))

/-- The diff-content argument `analyzeCommit` builds for
`generateCacheKey`:
`diffs.map(d => additions.join('\n') + '\n' + deletions.join('\n')).join('\n')`. -/
def diffsCacheContent (diffs : List ParsedDiff) : String :=
  joinSepStr "\n"
    (diffs.map fun d => joinSepStr "\n" d.additions ++ "\n" ++ joinSepStr "\n" d.deletions)

/-- The cache key `analyzeCommit` derives from the parsed diffs. -/
def diffsCacheKey (diffs : List ParsedDiff) : String :=
  generateCacheKey (diffs.map (·.filePath)) (diffsCacheContent diffs)

/-- `checkCommitCache` of `commit-analyzer.ts`: look the key up and, on a
live hit, reconstruct the returned analysis from the cached response's
fields (`[cached.scope].filter(Boolean)` drops an empty-string scope). -/
def checkCommitCache (diffs : List ParsedDiff) (cache : CommitCache) (now : Nat) :
    Option (String × CommitAnalysis) × CommitCache :=
  let r := cache.get (diffsCacheKey diffs) now
  match r.1 with
  | none => (none, r.2)
  | some cached =>
    (some (cached.commitMessage,
      ⟨diffs.map (·.filePath),
       cached.details.getD "",
       (match cached.scope with
        | some s => if s = "" then [] else [s]
        | none => []),
       [⟨cached.type, cached.scope, cached.commitMessage⟩],
       cached.breaking⟩),
     r.2)

/-- `createEmptyAnalysis`.  Modelled from the spec: only the tail of this
function survives in the source (`changeTypes: [], breakingChanges: false`
inside the garbled region of `commit-analyzer.ts`); the remaining fields
follow the spec's empty-analysis description and the end-to-end tests (the
fallback analysis carries the re-derived file list, the no-changes
analysis an empty one, and summary/impacted areas stay empty). -/
def createEmptyAnalysis (files : List String) : CommitAnalysis :=
  ⟨files, "", [], [], false⟩

/-- The `catch` block of `analyzeCommit`, dispatching on the thrown error:
recover `NoChangesError` into the fixed message, recover `LLMTimeoutError`
and `InvalidResponseError` into the deterministic fallback (re-deriving the
file list from a fresh `getStagedDiff` and inferring a change type from the
file paths), rethrow `GitError`, and rethrow anything else unchanged. -/
def dispatchCatch (gitDiff : Except String String)
    (inferType : List String → ChangeType) (e : JsErr) :
    Except JsErr (String × CommitAnalysis) :=
  match e with
  | .noChanges => .ok ("No changes staged for commit", createEmptyAnalysis [])
  | .llmTimeout _ | .invalidResponse _ =>
    match getStagedDiffM gitDiff with
    | .error e2 => .error e2
    | .ok diffs2 =>
      let files := diffs2.map (·.filePath)
      .ok (FALLBACK_COMMIT_TEMPLATE files (inferType files), createEmptyAnalysis files)
  | .gitError cmd err => .error (.gitError cmd err)
  | .plain m => .error (.plain m)

/-- `analyzeCommit` of `commit-analyzer.ts`: fetch and parse the staged
diff, throw `NoChangesError` on zero records, consult the cache, otherwise
take the model pipeline's outcome, cache a successful result, and run every
thrown error through the `catch` dispatch.  The result pairs the function's
own outcome with the final state of the module-level `commitCache`. -/
def analyzeCommit (gitDiff : Except String String)
    (llmOutcome : Except JsErr (String × CommitAnalysis))
    (inferType : List String → ChangeType)
    (cache : CommitCache) (now : Nat) :
    Except JsErr (String × CommitAnalysis) × CommitCache :=
  match getStagedDiffM gitDiff with
  | .error e => (dispatchCatch gitDiff inferType e, cache)
  | .ok diffs =>
    if diffs.isEmpty then (dispatchCatch gitDiff inferType .noChanges, cache)
    else
      let cc := checkCommitCache diffs cache now
      match cc.1 with
      | some hit => (.ok hit, cc.2)
      | none =>
        match llmOutcome with
        | .error e => (dispatchCatch gitDiff inferType e, cc.2)
        | .ok result =>
          let ct0 := result.2.changeTypes.head?
          let stored : LLMResponse :=
            ⟨result.1,
             (ct0.map (·.type)).getD .chore,
             ct0.bind (·.scope),
             result.2.breakingChanges,
             some result.2.summary⟩
          (.ok result, cc.2.set (diffsCacheKey diffs) stored now)

/-! ## Timeout and retry timeline (`withTimeout`, `withRetries`)

Each per-diff model call site in `commit-analyzer.ts` is
`withTimeout(withRetries(() => getLLMResponse(prompt), MAX_RETRIES), TIMEOUT_MS)`.
A call's behaviour is a schedule assigning each attempt number its duration
(time from the attempt's start to its settling) and settled outcome; the
wrappers then determine when and how the composite promise settles. -/

/-- `TIMEOUT_MS` of `commit-analyzer.ts`. -/
def TIMEOUT_MS : Nat := 2000

/-- `MAX_RETRIES` of `commit-analyzer.ts`. -/
def MAX_RETRIES : Nat := 2

/-- Timeline of `withRetries(fn, maxRetries, attempt)` started at time
`elapsed`: run the attempt; on failure with `attempt < maxRetries`, sleep
the exponential backoff `2^attempt * 100` and retry.  Returns the settle
time and outcome of the whole retry sequence.  Fuel is the number of
attempts left (`maxRetries` at the top level). -/
def retriesRun (sched : Nat → Nat × Except JsErr LLMResponse) (maxRetries : Nat) :
    Nat → Nat → Nat → Nat × Except JsErr LLMResponse
  | 0, attempt, elapsed =>
    ((sched attempt).1 + elapsed, (sched attempt).2)
  | fuel + 1, attempt, elapsed =>
    match (sched attempt).2 with
    | .ok v => ((sched attempt).1 + elapsed, .ok v)
    | .error e =>
      if maxRetries ≤ attempt then ((sched attempt).1 + elapsed, .error e)
      else
        retriesRun sched maxRetries fuel (attempt + 1)
          (elapsed + (sched attempt).1 + 2 ^ attempt * 100)

/-- `withTimeout(promise, ms)`: `Promise.race` of the wrapped promise
against `setTimeout(() => reject(new Error('Timeout after ' + ms + 'ms')), ms)`.
The earlier settling wins; when the timer fires first the race rejects with
that plain `Error`. -/
def withTimeoutRace (settled : Nat × Except JsErr LLMResponse) (ms : Nat) :
    Except JsErr LLMResponse :=
  if settled.1 ≤ ms then settled.2
  else .error (.plain ("Timeout after " ++ Nat.repr ms ++ "ms"))

/-- One per-diff model call as the source composes it:
the 2000 ms timer races the **entire** retry sequence. -/
def llmCallSite (sched : Nat → Nat × Except JsErr LLMResponse) :
    Except JsErr LLMResponse :=
  withTimeoutRace (retriesRun sched MAX_RETRIES MAX_RETRIES 1 0) TIMEOUT_MS

/-- The semantics the claim describes instead: every individual attempt is
separately raced against its own 2000 ms timer (a timer win counting as the
distinguished timeout failure), and the retry policy wraps those raced
attempts. -/
def perAttemptSched (sched : Nat → Nat × Except JsErr LLMResponse) (n : Nat) :
    Nat × Except JsErr LLMResponse :=
  if (sched n).1 ≤ TIMEOUT_MS then ((sched n).1, (sched n).2)
  else (TIMEOUT_MS, .error (.llmTimeout TIMEOUT_MS))

/-- The composite call under the claim's per-attempt-timeout semantics. -/
def perAttemptCallSite (sched : Nat → Nat × Except JsErr LLMResponse) :
    Except JsErr LLMResponse :=
  (retriesRun (perAttemptSched sched) MAX_RETRIES MAX_RETRIES 1 0).2

/-! ## Specification-side definitions used to state the claims -/

/-- The minimum `hitCount` over a list of cache entries (`none` when
empty). -/
def minHitsL : List (String × CacheEntry) → Option Nat
  | [] => none
  | p :: rest =>
    some (match minHitsL rest with
          | none => p.2.hitCount
          | some m => min p.2.hitCount m)

/-- The first entry (in iteration order) attaining the minimum
`hitCount` — the entry the spec says eviction removes. -/
def firstMinPair (l : List (String × CacheEntry)) : Option (String × CacheEntry) :=
  match minHitsL l with
  | none => none
  | some m => l.find? fun p => p.2.hitCount = m

/-! ## Concrete instances used by witnesses and counterexamples -/

/-- A staged diff of one file with one added line. -/
def text0 : String := "diff --git a/f.ts b/f.ts\n+x"

/-- A concrete model response. -/
def resp0 : LLMResponse := ⟨"chore: update x", .chore, none, false, none⟩

/-- A constant change-type heuristic. -/
def inferChore : List String → ChangeType := fun _ => .chore

/-- A model-call schedule: the first attempt fails after 1500 ms with an
invalid response, the second succeeds after another 1500 ms.  With the
200 ms backoff between them the retry sequence settles at 3200 ms — past
the 2000 ms deadline — while each individual attempt stays well under it. -/
def sched0 : Nat → Nat × Except JsErr LLMResponse :=
  fun n => if n = 1 then (1500, .error (.invalidResponse "bad json")) else (1500, .ok resp0)

/-- A full single-slot cache whose only (and hence least-used) entry has
the empty string as its key — reached from the empty cache by
`set("", …)`. -/
def cacheEmptyKey : CommitCache := CommitCache.set (CommitCache.make 1 24) "" resp0 0

/-- A capacity-3 cache at capacity whose second entry is the unique
least-hit one. -/
def cacheAtCap : CommitCache :=
  ⟨[("a", ⟨resp0, 5, 2⟩), ("b", ⟨resp0, 5, 1⟩), ("c", ⟨resp0, 5, 2⟩)], 3, 86400000⟩

/-- A cache already holding key `"k"` with an accumulated `hitCount` of 7. -/
def cacheWithK : CommitCache := ⟨[("k", ⟨resp0, 0, 7⟩)], 100, 86400000⟩

/-- A diff text of 1,000,001 identical characters — larger than the 1 MB
bound the spec requires `parseDiff` to reject. -/
def oversizedDiff : String := String.mk (List.replicate 1000001 'x')

/-- A schedule whose first attempt succeeds immediately. -/
def sched1 : Nat → Nat × Except JsErr LLMResponse := fun _ => (100, .ok resp0)

/-- The record `parseDiff` produces for `text0`. -/
def pdiff0 : ParsedDiff := ⟨"f.ts", ["x"], [], .added⟩

/-! ## Helper lemmas about the cache's association-list `Map` -/

theorem findEntry_mapSet_self (l : List (String × CacheEntry)) (k : String) (v : CacheEntry) :
    findEntry (mapSet l k v) k = some v := by
  induction l with
  | nil => simp [mapSet, findEntry]
  | cons p rest ih =>
    by_cases h : p.1 = k
    · simp [mapSet, findEntry, h]
    · simp [mapSet, findEntry, h, ih]

theorem findEntry_mapDelete_ne (l : List (String × CacheEntry)) (m q : String)
    (h : q ≠ m) : findEntry (mapDelete l m) q = findEntry l q := by
  induction l with
  | nil => rfl
  | cons p rest ih =>
    simp only [mapDelete]
    by_cases hp : p.1 = m
    · rw [if_pos hp]
      have hq : ¬ p.1 = q := by rw [hp]; exact fun hc => h hc.symm
      simp only [findEntry, if_neg hq]
    · rw [if_neg hp]
      simp only [findEntry, ih]

theorem findEntry_mapDelete_none (l : List (String × CacheEntry)) (m k : String)
    (h : findEntry l k = none) : findEntry (mapDelete l m) k = none := by
  induction l with
  | nil => exact h
  | cons p rest ih =>
    simp only [findEntry] at h
    by_cases hp : p.1 = k
    · rw [if_pos hp] at h
      exact absurd h (by simp)
    · rw [if_neg hp] at h
      simp only [mapDelete]
      by_cases hm : p.1 = m
      · rw [if_pos hm]
        exact h
      · rw [if_neg hm]
        simp only [findEntry, if_neg hp]
        exact ih h

theorem mapSet_append_of_none (l : List (String × CacheEntry)) (k : String)
    (v : CacheEntry) (h : findEntry l k = none) : mapSet l k v = l ++ [(k, v)] := by
  induction l with
  | nil => simp [mapSet]
  | cons p rest ih =>
    by_cases hp : p.1 = k
    · simp [findEntry, hp] at h
    · simp only [findEntry, hp, if_false] at h
      simp [mapSet, hp, ih h]

theorem mapDelete_length (l : List (String × CacheEntry)) (m : String) (e : CacheEntry)
    (h : findEntry l m = some e) : (mapDelete l m).length + 1 = l.length := by
  induction l with
  | nil => simp [findEntry] at h
  | cons p rest ih =>
    by_cases hp : p.1 = m
    · simp [mapDelete, hp]
    · simp only [findEntry, hp, if_false] at h
      simp [mapDelete, hp, ih h]

theorem findEntry_append (l1 l2 : List (String × CacheEntry)) (k : String) :
    findEntry (l1 ++ l2) k =
      match findEntry l1 k with
      | some e => some e
      | none => findEntry l2 k := by
  induction l1 with
  | nil => simp [findEntry]
  | cons p rest ih =>
    by_cases hp : p.1 = k
    · simp [findEntry, hp]
    · simp [findEntry, hp, ih]

theorem findEntry_of_mem_nodup (l : List (String × CacheEntry)) (q : String × CacheEntry)
    (hmem : q ∈ l) (hnd : (l.map Prod.fst).Nodup) : findEntry l q.1 = some q.2 := by
  induction l with
  | nil => simp at hmem
  | cons p rest ih =>
    simp only [List.map_cons, List.nodup_cons] at hnd
    rcases List.mem_cons.mp hmem with h | h
    · subst h
      simp [findEntry]
    · have hne : ¬ p.1 = q.1 := by
        intro hc
        exact hnd.1 (hc ▸ (List.mem_map.mpr ⟨q, h, rfl⟩))
      simp [findEntry, hne]
      exact ih h hnd.2

theorem findEntry_mapDelete_self_nodup (l : List (String × CacheEntry)) (m : String)
    (hnd : (l.map Prod.fst).Nodup) : findEntry (mapDelete l m) m = none := by
  induction l with
  | nil => simp [mapDelete, findEntry]
  | cons p rest ih =>
    simp only [List.map_cons, List.nodup_cons] at hnd
    by_cases hp : p.1 = m
    · subst hp
      cases hfind : findEntry rest p.1 with
      | none => simp [mapDelete, hfind]
      | some e =>
        exfalso
        have : p.1 ∈ rest.map Prod.fst := by
          clear ih hnd
          induction rest with
          | nil => simp [findEntry] at hfind
          | cons r rs ihr =>
            by_cases hr : r.1 = p.1
            · simp [hr]
            · simp only [findEntry, hr, if_false] at hfind
              simp [ihr hfind]
        exact hnd.1 this
    · simp [mapDelete, hp, findEntry, ih hnd.2]

/-! ## Characterization of `evictLeastUsed`'s scan -/

theorem minHitsL_eq_none (l : List (String × CacheEntry)) :
    minHitsL l = none ↔ l = [] := by
  cases l with
  | nil => simp [minHitsL]
  | cons p rest => simp [minHitsL]

theorem minHitsL_le (l : List (String × CacheEntry)) (m : Nat)
    (h : minHitsL l = some m) : ∀ p ∈ l, m ≤ p.2.hitCount := by
  induction l generalizing m with
  | nil => simp [minHitsL] at h
  | cons q rest ih =>
    intro p hp
    simp only [minHitsL] at h
    cases hrest : minHitsL rest with
    | none =>
      have hr : rest = [] := (minHitsL_eq_none rest).mp hrest
      subst hr
      rw [hrest] at h
      simp only [Option.some_inj] at h
      rcases List.mem_cons.mp hp with h1 | h1
      · subst h1
        omega
      · simp at h1
    | some mr =>
      rw [hrest] at h
      simp only [Option.some_inj] at h
      rcases List.mem_cons.mp hp with h1 | h1
      · subst h1
        omega
      · have := ih mr hrest p h1
        omega

theorem find?_decomp {α : Type} (l : List α) (pred : α → Bool) (a : α)
    (h : l.find? pred = some a) :
    ∃ pre post, l = pre ++ a :: post ∧ (∀ q ∈ pre, pred q = false) ∧ pred a = true := by
  induction l with
  | nil => simp [List.find?] at h
  | cons b rest ih =>
    by_cases hb : pred b
    · rw [List.find?_cons_of_pos _ hb] at h
      refine ⟨[], rest, ?_, ?_, ?_⟩
      · simp [(Option.some_inj.mp h).symm]
      · simp
      · rw [Option.some_inj.mp h] at hb
        exact hb
    · rw [List.find?_cons_of_neg _ (by simpa using hb)] at h
      obtain ⟨pre, post, heq, hpre, ha⟩ := ih h
      exact ⟨b :: pre, post, by simp [heq], by
        intro q hq
        rcases List.mem_cons.mp hq with h1 | h1
        · subst h1
          simpa using hb
        · exact hpre q h1, ha⟩

theorem leastUsedGo_some_spec (l : List (String × CacheEntry)) :
    ∀ bk bh, leastUsedGo (some (bk, bh)) l =
      match minHitsL l with
      | none => some (bk, bh)
      | some m =>
        if m < bh then (l.find? fun p => p.2.hitCount = m).map fun p => (p.1, p.2.hitCount)
        else some (bk, bh) := by
  induction l with
  | nil => intro bk bh; rfl
  | cons p rest ih =>
    intro bk bh
    simp only [leastUsedGo, minHitsL]
    cases hrest : minHitsL rest with
    | none =>
      have hr : rest = [] := (minHitsL_eq_none rest).mp hrest
      subst hr
      dsimp only
      by_cases h1 : p.2.hitCount < bh
      · rw [if_pos h1, if_pos h1]
        simp only [leastUsedGo]
        rw [List.find?_cons_of_pos _ (by simp)]
        rfl
      · rw [if_neg h1, if_neg h1]
        simp only [leastUsedGo]
    | some m =>
      dsimp only
      by_cases h1 : p.2.hitCount < bh
      · rw [if_pos h1, ih p.1 p.2.hitCount, hrest]
        dsimp only
        by_cases h2 : m < p.2.hitCount
        · rw [if_pos h2]
          have hmin : min p.2.hitCount m = m := by omega
          rw [hmin, if_pos (by omega : m < bh)]
          have hne : ¬ (p.2.hitCount = m) := by omega
          rw [List.find?_cons_of_neg _ (by simpa using hne)]
        · rw [if_neg h2]
          have hmin : min p.2.hitCount m = p.2.hitCount := by omega
          rw [hmin, if_pos h1]
          rw [List.find?_cons_of_pos _ (by simp)]
          rfl
      · rw [if_neg h1, ih bk bh, hrest]
        dsimp only
        by_cases h2 : m < bh
        · rw [if_pos h2]
          have hmin : min p.2.hitCount m = m := by omega
          rw [hmin, if_pos (by omega : m < bh)]
          have hne : ¬ (p.2.hitCount = m) := by omega
          rw [List.find?_cons_of_neg _ (by simpa using hne)]
        · rw [if_neg h2]
          have hm2 : ¬ (min p.2.hitCount m < bh) := by omega
          rw [if_neg hm2]

theorem leastUsedKey_eq_firstMin (l : List (String × CacheEntry)) :
    leastUsedKey l = (firstMinPair l).map Prod.fst := by
  cases l with
  | nil => rfl
  | cons p rest =>
    simp only [leastUsedKey, leastUsedGo, firstMinPair, minHitsL]
    rw [leastUsedGo_some_spec rest p.1 p.2.hitCount]
    cases hrest : minHitsL rest with
    | none =>
      have hr : rest = [] := (minHitsL_eq_none rest).mp hrest
      subst hr
      dsimp only
      rw [List.find?_cons_of_pos _ (by simp)]
      rfl
    | some m =>
      dsimp only
      by_cases h2 : m < p.2.hitCount
      · rw [if_pos h2]
        have hmin : min p.2.hitCount m = m := by omega
        rw [hmin]
        have hne : ¬ (p.2.hitCount = m) := by omega
        rw [List.find?_cons_of_neg _ (by simpa using hne)]
        cases rest.find? fun q => q.2.hitCount = m with
        | none => rfl
        | some q => rfl
      · rw [if_neg h2]
        have hmin : min p.2.hitCount m = p.2.hitCount := by omega
        rw [hmin]
        rw [List.find?_cons_of_pos _ (by simp)]
        rfl

/-! ## Helper lemmas about `parseDiff` -/

theorem chunkRecord_isSome (opts : MergedOptions) (chunk : List Char) :
    (chunkRecord opts chunk).isSome = isFileBlock opts chunk := by
  simp only [chunkRecord, isFileBlock]
  split
  next h1 => simp [h1]
  next h1 =>
    split
    next h2 =>
      simp only [List.headD_eq_head?] at h2
      simp [h1, h2]
    next h2 =>
      simp only [List.headD_eq_head?] at h2
      split
      next h3 =>
        simp only [List.headD_eq_head?] at h3
        simp [h1, h2, h3]
      next h3 =>
        simp only [List.headD_eq_head?] at h3
        simp [h1, h2, h3]

theorem length_filterMap_eq_length_filter {α β : Type} (f : α → Option β) (l : List α) :
    (l.filterMap f).length = (l.filter fun a => (f a).isSome).length := by
  induction l with
  | nil => rfl
  | cons a rest ih =>
    cases hf : f a with
    | none => simp [List.filterMap_cons, List.filter_cons, hf, ih]
    | some b => simp [List.filterMap_cons, List.filter_cons, hf, ih]

theorem parseDiff_length (text : String) (options : DiffParseOptions) :
    (parseDiff text options).length = fileBlockCount text options := by
  unfold parseDiff fileBlockCount
  rw [length_filterMap_eq_length_filter]
  congr 1
  apply List.filter_congr
  intro chunk _
  rw [chunkRecord_isSome]

theorem parseDiff_mem_changeType (text : String) (options : DiffParseOptions)
    (p : ParsedDiff) (hp : p ∈ parseDiff text options) :
    p.changeType = determineChangeType p.additions p.deletions := by
  unfold parseDiff at hp
  obtain ⟨chunk, _, hrec⟩ := List.mem_filterMap.mp hp
  simp only [chunkRecord] at hrec
  split at hrec
  · exact absurd hrec (by simp)
  · split at hrec
    · exact absurd hrec (by simp)
    · split at hrec
      · exact absurd hrec (by simp)
      · rw [← Option.some_inj.mp hrec]

theorem determineChangeType_added (a d : List String) :
    determineChangeType a d = .added ↔ (d = [] ∧ a ≠ []) := by
  unfold determineChangeType
  rcases a with _ | ⟨x, xs⟩ <;> rcases d with _ | ⟨y, ys⟩ <;> simp

theorem determineChangeType_deleted (a d : List String) :
    determineChangeType a d = .deleted ↔ (a = [] ∧ d ≠ []) := by
  unfold determineChangeType
  rcases a with _ | ⟨x, xs⟩ <;> rcases d with _ | ⟨y, ys⟩ <;> simp

theorem determineChangeType_modified (a d : List String) :
    determineChangeType a d = .modified ↔ ((a = [] ∧ d = []) ∨ (a ≠ [] ∧ d ≠ [])) := by
  unfold determineChangeType
  rcases a with _ | ⟨x, xs⟩ <;> rcases d with _ | ⟨y, ys⟩ <;> simp

theorem determineChangeType_lengths (a d a' d' : List String)
    (ha : a.length = a'.length) (hd : d.length = d'.length) :
    determineChangeType a d = determineChangeType a' d' := by
  unfold determineChangeType
  rw [ha, hd]

/-! ## Lemmas about `parseDiff` on a large uniform input -/

theorem splitOnGo_all_x (sep : List Char)
    (hsep : ∀ r : List Char, startsWithL sep ('x' :: r) = false) :
    ∀ (n : Nat) (acc : List Char),
      splitOnGo sep (n + 1) acc (List.replicate n 'x') =
        [acc.reverse ++ List.replicate n 'x'] := by
  intro n
  induction n with
  | zero => intro acc; simp [splitOnGo, List.replicate]
  | succ k ih =>
    intro acc
    rw [List.replicate_succ]
    simp only [splitOnGo, hsep]
    rw [ih ('x' :: acc)]
    simp [List.replicate_succ]

theorem splitOnL_all_x (sep : List Char) (hne : sep.isEmpty = false)
    (hsep : ∀ r : List Char, startsWithL sep ('x' :: r) = false) (n : Nat) :
    splitOnL sep (List.replicate n 'x') = [List.replicate n 'x'] := by
  unfold splitOnL
  rw [hne]
  simp only [Bool.false_eq_true, if_false, List.length_replicate]
  rw [splitOnGo_all_x sep hsep n []]
  simp

theorem extractGo_all_x : ∀ (fuel n : Nat), extractGo fuel (List.replicate n 'x') = none := by
  intro fuel
  induction fuel with
  | zero => intro n; rfl
  | succ k ih =>
    intro n
    cases n with
    | zero => rfl
    | succ j =>
      rw [List.replicate_succ]
      simp only [extractGo]
      rw [if_neg (by decide)]
      exact ih j

theorem jsTrim_all_x (n : Nat) : jsTrim (List.replicate n 'x') = List.replicate n 'x' := by
  unfold jsTrim
  cases n with
  | zero => rfl
  | succ k =>
    rw [List.replicate_succ]
    rw [List.dropWhile_cons_of_neg (by decide)]
    rw [← List.replicate_succ]
    have hrev : (List.replicate (k + 1) 'x').reverse = List.replicate (k + 1) 'x' := by
      simp [List.reverse_replicate]
    rw [hrev, List.replicate_succ]
    rw [List.dropWhile_cons_of_neg (by decide)]
    rw [← List.replicate_succ, hrev]

theorem chunkRecord_all_x (opts : MergedOptions) (n : Nat) :
    chunkRecord opts (List.replicate (n + 1) 'x') = none := by
  unfold chunkRecord
  rw [jsTrim_all_x (n + 1)]
  rw [if_neg (by simp [List.replicate_succ])]
  have hlines : splitOnL ['\n'] (List.replicate (n + 1) 'x') = [List.replicate (n + 1) 'x'] := by
    apply splitOnL_all_x
    · rfl
    · intro r
      simp [startsWithL]
  rw [hlines]
  simp only [List.headD]
  unfold extractFilePath
  rw [extractGo_all_x]
  simp

theorem parseDiff_all_x (n : Nat) :
    parseDiff (String.mk (List.replicate (n + 1) 'x')) emptyOpts = [] := by
  unfold parseDiff
  have hdata : (String.mk (List.replicate (n + 1) 'x')).data = List.replicate (n + 1) 'x' := rfl
  rw [hdata]
  have hsplit : splitOnL "diff --git".data (List.replicate (n + 1) 'x') =
      [List.replicate (n + 1) 'x'] := by
    apply splitOnL_all_x
    · rfl
    · intro r
      simp [startsWithL]
  rw [hsplit]
  simp [List.filterMap_cons, chunkRecord_all_x]

/-! ## Order lemmas for the cache-key sort -/

theorem charListLe_total (a b : List Char) : charListLe a b = true ∨ charListLe b a = true := by
  induction a generalizing b with
  | nil => left; rfl
  | cons x xs ih =>
    cases b with
    | nil => right; rfl
    | cons y ys =>
      simp only [charListLe]
      rcases Nat.lt_trichotomy x.toNat y.toNat with h | h | h
      · left; simp [h]
      · have hxy : ¬ x.toNat < y.toNat := by omega
        have hyx : ¬ y.toNat < x.toNat := by omega
        rcases ih ys with h2 | h2
        · left; simp [hxy, hyx, h2]
        · right; simp [hxy, hyx, h2]
      · right; simp [h, Nat.lt_asymm h]

theorem charListLe_trans (a b c : List Char) (h1 : charListLe a b = true)
    (h2 : charListLe b c = true) : charListLe a c = true := by
  induction a generalizing b c with
  | nil => rfl
  | cons x xs ih =>
    cases b with
    | nil => simp [charListLe] at h1
    | cons y ys =>
      cases c with
      | nil => simp [charListLe] at h2
      | cons z zs =>
        simp only [charListLe] at h1 h2 ⊢
        rcases Nat.lt_trichotomy x.toNat y.toNat with hxy | hxy | hxy <;>
          rcases Nat.lt_trichotomy y.toNat z.toNat with hyz | hyz | hyz
        all_goals first
          | (simp only [if_pos (by omega : x.toNat < z.toNat)])
          | (rw [if_neg (by omega : ¬ x.toNat < y.toNat), if_pos (by omega : y.toNat < x.toNat)] at h1
             exact absurd h1 (by simp))
          | (rw [if_neg (by omega : ¬ y.toNat < z.toNat), if_pos (by omega : z.toNat < y.toNat)] at h2
             exact absurd h2 (by simp))
          | (rw [if_neg (by omega : ¬ x.toNat < y.toNat),
                 if_neg (by omega : ¬ y.toNat < x.toNat)] at h1
             rw [if_neg (by omega : ¬ y.toNat < z.toNat),
                 if_neg (by omega : ¬ z.toNat < y.toNat)] at h2
             rw [if_neg (by omega : ¬ x.toNat < z.toNat),
                 if_neg (by omega : ¬ z.toNat < x.toNat)]
             exact ih ys zs h1 h2)

theorem charListLe_antisymm (a b : List Char) (h1 : charListLe a b = true)
    (h2 : charListLe b a = true) : a = b := by
  induction a generalizing b with
  | nil =>
    cases b with
    | nil => rfl
    | cons y ys => simp [charListLe] at h2
  | cons x xs ih =>
    cases b with
    | nil => simp [charListLe] at h1
    | cons y ys =>
      simp only [charListLe] at h1 h2
      rcases Nat.lt_trichotomy x.toNat y.toNat with h | h | h
      · rw [if_neg (by omega : ¬ y.toNat < x.toNat), if_pos h] at h2
        exact absurd h2 (by simp)
      · have hxy : ¬ x.toNat < y.toNat := by omega
        have hyx : ¬ y.toNat < x.toNat := by omega
        rw [if_neg hxy, if_neg hyx] at h1
        rw [if_neg hyx, if_neg hxy] at h2
        have hchar : x = y := Char.eq_of_val_eq (UInt32.ext h)
        rw [hchar, ih ys h1 h2]
      · rw [if_neg (by omega : ¬ x.toNat < y.toNat), if_pos h] at h1
        exact absurd h1 (by simp)

instance : IsTotal String strLe :=
  ⟨fun a b => charListLe_total a.data b.data⟩

instance : IsTrans String strLe :=
  ⟨fun a b c => charListLe_trans a.data b.data c.data⟩

instance : IsAntisymm String strLe :=
  ⟨fun a b h1 h2 => by
    cases a with
    | mk da =>
      cases b with
      | mk db =>
        have hd : da = db := charListLe_antisymm da db h1 h2
        rw [hd]⟩

theorem jsSortStrings_perm_eq (l l' : List String) (h : l.Perm l') :
    jsSortStrings l = jsSortStrings l' := by
  unfold jsSortStrings
  exact @List.eq_of_perm_of_sorted String strLe _ _ _
    (((List.perm_insertionSort strLe l).trans h).trans
      (List.perm_insertionSort strLe l').symm)
    (List.sorted_insertionSort strLe l)
    (List.sorted_insertionSort strLe l')

/-! ## Claim C1 -/

/-- C1: whenever parsed diffs exist and the model pipeline's outcome is a
distinguished timeout or invalid-response failure (the failures that remain
after exhausting retries), `analyzeCommit` returns — rather than throws —
the deterministic fallback `"<type>: update <comma-joined files>"` built
from the re-derived file list with the heuristically inferred change type,
paired with an analysis whose `changeTypes` is empty and whose
`breakingChanges` is `false`. -/
theorem analyzeCommit_llm_failure_fallback
    (text : String) (e : JsErr) (inferType : List String → ChangeType)
    (cache : CommitCache) (now : Nat)
    (hne : parseDiff text emptyOpts ≠ [])
    (he : (∃ ms, e = JsErr.llmTimeout ms) ∨ ∃ s, e = JsErr.invalidResponse s)
    (hmiss : (cache.get (diffsCacheKey (parseDiff text emptyOpts)) now).1 = none) :
    (analyzeCommit (.ok text) (.error e) inferType cache now).1 =
      .ok (FALLBACK_COMMIT_TEMPLATE ((parseDiff text emptyOpts).map (·.filePath))
             (inferType ((parseDiff text emptyOpts).map (·.filePath))),
           createEmptyAnalysis ((parseDiff text emptyOpts).map (·.filePath)))
    ∧ (createEmptyAnalysis ((parseDiff text emptyOpts).map (·.filePath))).changeTypes = []
    ∧ (createEmptyAnalysis ((parseDiff text emptyOpts).map (·.filePath))).breakingChanges
        = false := by
  refine ⟨?_, rfl, rfl⟩
  have hempty : (parseDiff text emptyOpts).isEmpty = false := by
    cases hp : parseDiff text emptyOpts with
    | nil => exact absurd hp hne
    | cons a l => rfl
  simp only [analyzeCommit, getStagedDiffM, checkCommitCache]
  rw [hempty]
  simp only [Bool.false_eq_true, if_false]
  rw [hmiss]
  rcases he with ⟨ms, hms⟩ | ⟨s, hs⟩
  · subst hms
    rfl
  · subst hs
    rfl

/-- Witness for C1 at a one-file diff, a timeout failure, and the cold
module cache. -/
theorem analyzeCommit_llm_failure_fallback_witness :
    (parseDiff text0 emptyOpts ≠ [] ∧
     (commitCache0.get (diffsCacheKey (parseDiff text0 emptyOpts)) 0).1 = none) ∧
    (analyzeCommit (.ok text0) (.error (.llmTimeout 2000)) inferChore commitCache0 0).1 =
      .ok ("chore: update f.ts", createEmptyAnalysis ["f.ts"]) := by
  refine ⟨⟨by decide, by decide⟩, ?_⟩
  have h := analyzeCommit_llm_failure_fallback text0 (.llmTimeout 2000) inferChore
    commitCache0 0 (by decide) (Or.inl ⟨2000, rfl⟩) (by decide)
  exact h.1.trans (by decide)

/-! ## Claim C2 -/

/-- Counterexample to C2: under the schedule `sched0` every individual
attempt lasts 1500 ms — under the claimed per-attempt-race semantics the
call would succeed on the second attempt — yet the call site as the source
composes it (`withTimeout` wrapped around the whole of `withRetries`)
times out at the shared 2000 ms deadline, and the resulting failure is a
plain `Error`, not the distinguished `LLMTimeoutError`. -/
theorem llmCallSite_shared_deadline_counterexample :
    llmCallSite sched0 = .error (.plain "Timeout after 2000ms")
    ∧ perAttemptCallSite sched0 = .ok resp0
    ∧ JsErr.plain "Timeout after 2000ms" ≠ JsErr.llmTimeout 2000 := by
  exact ⟨by decide, by decide, by decide⟩

/-- C2 as amended: at each model-call site the 2000 ms timer races the
entire retry sequence — attempts and backoff sleeps together under one
deadline, per call site rather than globally — and when the timer wins the
failure is the plain `Error('Timeout after 2000ms')`, never the
distinguished `LLMTimeoutError`; when the retry sequence settles within
the deadline its own outcome is returned. -/
theorem llmCallSite_timeout_behaviour (sched : Nat → Nat × Except JsErr LLMResponse) :
    (TIMEOUT_MS < (retriesRun sched MAX_RETRIES MAX_RETRIES 1 0).1 →
      llmCallSite sched = .error (.plain "Timeout after 2000ms")
      ∧ ∀ ms, llmCallSite sched ≠ .error (.llmTimeout ms))
    ∧ ((retriesRun sched MAX_RETRIES MAX_RETRIES 1 0).1 ≤ TIMEOUT_MS →
      llmCallSite sched = (retriesRun sched MAX_RETRIES MAX_RETRIES 1 0).2) := by
  constructor
  · intro h
    have hcall : llmCallSite sched = .error (.plain "Timeout after 2000ms") := by
      unfold llmCallSite withTimeoutRace
      rw [if_neg (by omega)]
      rfl
    exact ⟨hcall, fun ms => by rw [hcall]; simp⟩
  · intro h
    unfold llmCallSite withTimeoutRace
    rw [if_pos (by omega)]

/-- Witness for C2's amended theorem: both deadline regimes at concrete
schedules. -/
theorem llmCallSite_timeout_behaviour_witness :
    (TIMEOUT_MS < (retriesRun sched0 MAX_RETRIES MAX_RETRIES 1 0).1 ∧
      llmCallSite sched0 = .error (.plain "Timeout after 2000ms")) ∧
    ((retriesRun sched1 MAX_RETRIES MAX_RETRIES 1 0).1 ≤ TIMEOUT_MS ∧
      llmCallSite sched1 = (retriesRun sched1 MAX_RETRIES MAX_RETRIES 1 0).2) := by
  refine ⟨⟨by decide, ?_⟩, ⟨by decide, ?_⟩⟩
  · exact ((llmCallSite_timeout_behaviour sched0).1 (by decide)).1
  · exact (llmCallSite_timeout_behaviour sched1).2 (by decide)

/-! ## Claim C3 -/

/-- Counterexample to C3: when the version-control collaborator fails with
`"fatal: not a git repository"`, the error `analyzeCommit` rejects with is
a fresh plain `Error` whose message is the wrapped
`"Failed to get staged diff: …"` — not the collaborator's own error. -/
theorem analyzeCommit_gitError_wrapped_counterexample :
    (analyzeCommit (.error "fatal: not a git repository") (.error (.plain "unused"))
        inferChore commitCache0 0).1 =
      .error (.plain "Failed to get staged diff: fatal: not a git repository")
    ∧ JsErr.plain "Failed to get staged diff: fatal: not a git repository" ≠
        JsErr.plain "fatal: not a git repository" := by
  exact ⟨rfl, by decide⟩

/-- C3 as amended: a diff-retrieval failure is never recovered into a
fallback — `analyzeCommit` rejects, leaving the cache untouched — but the
error reaching the caller is the plain `Error` that `getStagedDiff`'s
`catch` creates, with message `"Failed to get staged diff: "` prepended to
the collaborator's message; `analyzeCommit` rethrows that wrapper
unchanged through its unclassified-error branch (the wrapper is not a
`GitError`). -/
theorem analyzeCommit_gitError_propagates_wrapped (msg : String)
    (llmOutcome : Except JsErr (String × CommitAnalysis))
    (inferType : List String → ChangeType) (cache : CommitCache) (now : Nat) :
    analyzeCommit (.error msg) llmOutcome inferType cache now =
      (.error (.plain ("Failed to get staged diff: " ++ msg)), cache) := by
  rfl

/-! ## Claim C4 -/

/-- C4: a diff text with zero file blocks parses to the empty sequence
(under any options), and `analyzeCommit` on such input resolves — no error
reaches the caller — with the fixed `"No changes staged for commit"`
message and an analysis whose file list is empty. -/
theorem analyzeCommit_no_changes (text : String)
    (llmOutcome : Except JsErr (String × CommitAnalysis))
    (inferType : List String → ChangeType) (cache : CommitCache) (now : Nat)
    (hzero : fileBlockCount text emptyOpts = 0) :
    parseDiff text emptyOpts = []
    ∧ (∀ options, fileBlockCount text options = 0 → parseDiff text options = [])
    ∧ (analyzeCommit (.ok text) llmOutcome inferType cache now).1 =
        .ok ("No changes staged for commit", createEmptyAnalysis [])
    ∧ (createEmptyAnalysis []).files = [] := by
  have hgen : ∀ options, fileBlockCount text options = 0 → parseDiff text options = [] := by
    intro options h0
    have : (parseDiff text options).length = 0 := by
      rw [parseDiff_length]
      exact h0
    exact List.eq_nil_of_length_eq_zero this
  have hp : parseDiff text emptyOpts = [] := hgen emptyOpts hzero
  refine ⟨hp, hgen, ?_, rfl⟩
  simp only [analyzeCommit, getStagedDiffM]
  rw [hp]
  rfl

/-- Witness for C4 at the empty diff text. -/
theorem analyzeCommit_no_changes_witness :
    fileBlockCount "" emptyOpts = 0 ∧
    parseDiff "" emptyOpts = [] ∧
    (analyzeCommit (.ok "") (.error (.plain "unused")) inferChore commitCache0 0).1 =
      .ok ("No changes staged for commit", createEmptyAnalysis []) := by
  have h := analyzeCommit_no_changes "" (.error (.plain "unused")) inferChore
    commitCache0 0 (by decide)
  exact ⟨by decide, h.1, h.2.2.1⟩

/-! ## Claim C5 -/

/-- C5: for every record `parseDiff` produces, `changeType` is `added` iff
deletions are empty and additions non-empty, `deleted` iff additions are
empty and deletions non-empty, and `modified` in every other case
(including both empty); moreover it is a pure function of the pair of
lengths — any two parse-produced records with equal addition and deletion
counts share their `changeType`. -/
theorem parseDiff_changeType_invariant (text : String) (options : DiffParseOptions)
    (p : ParsedDiff) (hp : p ∈ parseDiff text options) :
    (p.changeType = .added ↔ (p.deletions = [] ∧ p.additions ≠ []))
    ∧ (p.changeType = .deleted ↔ (p.additions = [] ∧ p.deletions ≠ []))
    ∧ (p.changeType = .modified ↔
        ((p.additions = [] ∧ p.deletions = []) ∨ (p.additions ≠ [] ∧ p.deletions ≠ [])))
    ∧ (∀ (textB : String) (optionsB : DiffParseOptions) (q : ParsedDiff),
        q ∈ parseDiff textB optionsB →
        q.additions.length = p.additions.length →
        q.deletions.length = p.deletions.length →
        q.changeType = p.changeType) := by
  have h := parseDiff_mem_changeType text options p hp
  refine ⟨?_, ?_, ?_, ?_⟩
  · rw [h]
    exact determineChangeType_added _ _
  · rw [h]
    exact determineChangeType_deleted _ _
  · rw [h]
    exact determineChangeType_modified _ _
  · intro textB optionsB q hq ha hd
    rw [parseDiff_mem_changeType textB optionsB q hq, h]
    exact determineChangeType_lengths _ _ _ _ ha hd

/-- Witness for C5 at the one-file additions-only diff. -/
theorem parseDiff_changeType_invariant_witness :
    pdiff0 ∈ parseDiff text0 emptyOpts ∧
    (pdiff0.changeType = .added ↔ (pdiff0.deletions = [] ∧ pdiff0.additions ≠ [])) := by
  refine ⟨by decide, ?_⟩
  exact (parseDiff_changeType_invariant text0 emptyOpts pdiff0 (by decide)).1

/-! ## Claim C6 -/

/-- Counterexample to C6: `cacheEmptyKey` is a capacity-1 cache at
capacity whose single (hence least-hit) entry has the empty-string key —
a state reached through the public API by `set("", …)`.  Inserting a
fresh key evicts nothing: the truthiness guard `if (leastUsedKey)` treats
the empty-string key as absent, the store grows to 2 entries, and the
old entry survives — the claim's "set first evicts exactly one entry"
fails at this state. -/
theorem cacheSet_empty_key_no_eviction_counterexample :
    cacheEmptyKey.entries.length = cacheEmptyKey.maxSize
    ∧ (CommitCache.set cacheEmptyKey "k" resp0 1).entries.length = 2
    ∧ (CommitCache.set cacheEmptyKey "k" resp0 1).maxSize = 1
    ∧ findEntry (CommitCache.set cacheEmptyKey "k" resp0 1).entries "" =
        some ⟨resp0, 0, 1⟩ := by
  exact ⟨by decide, by decide, by decide, by decide⟩

/-- C6 as amended: for a cache at capacity with distinct keys, inserting a
fresh key first evicts exactly one entry — the first-encountered entry with
the lowest `hitCount` — provided that entry's key is not the empty string
(for an empty-string key the JS truthiness guard `if (leastUsedKey)` skips
the delete and the store exceeds `maxSize`).  The evicted entry attains the
minimum `hitCount`, every earlier entry has a strictly larger one, all
other entries survive unchanged, and the size returns to `maxSize`; in
particular, when one never-accessed entry (hitCount 1) sits among entries
accessed at least once (hitCount ≥ 2), it is the unique minimum and is the
one evicted. -/
theorem cacheSet_evicts_first_least_hit (c : CommitCache) (k : String) (r : LLMResponse)
    (t : Nat) (m : String) (em : CacheEntry)
    (hnd : (c.entries.map Prod.fst).Nodup)
    (hcap : c.entries.length = c.maxSize)
    (hfresh : findEntry c.entries k = none)
    (hmin : firstMinPair c.entries = some (m, em))
    (hm : m ≠ "") :
    (CommitCache.set c k r t).entries = mapDelete c.entries m ++ [(k, ⟨r, t, 1⟩)]
    ∧ (CommitCache.set c k r t).entries.length = c.maxSize
    ∧ findEntry (CommitCache.set c k r t).entries m = none
    ∧ (∀ q ∈ c.entries, q.1 ≠ m → findEntry (CommitCache.set c k r t).entries q.1 = some q.2)
    ∧ (∀ q ∈ c.entries, em.hitCount ≤ q.2.hitCount)
    ∧ (∃ pre post, c.entries = pre ++ (m, em) :: post ∧
        ∀ q ∈ pre, em.hitCount < q.2.hitCount) := by
  -- Unpack the first-minimum characterization.
  have hmv : ∃ mv, minHitsL c.entries = some mv ∧
      (c.entries.find? fun p => p.2.hitCount = mv) = some (m, em) := by
    unfold firstMinPair at hmin
    cases hmh : minHitsL c.entries with
    | none => rw [hmh] at hmin; exact absurd hmin (by simp)
    | some mv => rw [hmh] at hmin; exact ⟨mv, rfl, hmin⟩
  obtain ⟨mv, hmh, hfind⟩ := hmv
  obtain ⟨pre, post, heq, hpre, hpred⟩ := find?_decomp _ _ _ hfind
  have hemv : em.hitCount = mv := by simpa using hpred
  have hmem : (m, em) ∈ c.entries := by rw [heq]; simp
  have hle : ∀ q ∈ c.entries, em.hitCount ≤ q.2.hitCount := by
    intro q hq
    rw [hemv]
    exact minHitsL_le _ mv hmh q hq
  have hfm : findEntry c.entries m = some em :=
    findEntry_of_mem_nodup c.entries (m, em) hmem hnd
  have hkm : k ≠ m := by
    intro hc
    rw [hc, hfm] at hfresh
    exact absurd hfresh (by simp)
  -- Reduce `set` through the eviction branch.
  have hevict : (CommitCache.set c k r t).entries =
      mapSet (mapDelete c.entries m) k ⟨r, t, 1⟩ := by
    unfold CommitCache.set CommitCache.evictLeastUsed
    rw [if_pos (by omega)]
    rw [leastUsedKey_eq_firstMin, hmin]
    simp only [Option.map_some']
    rw [if_neg hm]
  have hdelnone : findEntry (mapDelete c.entries m) k = none :=
    findEntry_mapDelete_none _ _ _ hfresh
  have hentries : (CommitCache.set c k r t).entries =
      mapDelete c.entries m ++ [(k, ⟨r, t, 1⟩)] := by
    rw [hevict, mapSet_append_of_none _ _ _ hdelnone]
  refine ⟨hentries, ?_, ?_, ?_, hle, ?_⟩
  · rw [hentries]
    have hdl := mapDelete_length c.entries m em hfm
    simp only [List.length_append, List.length_cons, List.length_nil]
    omega
  · rw [hentries, findEntry_append]
    rw [findEntry_mapDelete_self_nodup _ _ hnd]
    simp only [findEntry]
    rw [if_neg hkm]
  · intro q hq hqm
    rw [hentries, findEntry_append]
    rw [findEntry_mapDelete_ne _ _ _ hqm]
    rw [findEntry_of_mem_nodup c.entries q hq hnd]
  · refine ⟨pre, post, heq, ?_⟩
    intro q hq
    have hqmem : q ∈ c.entries := by rw [heq]; simp [hq]
    have h1 := hle q hqmem
    have h2 : ¬ (q.2.hitCount = mv) := by simpa using hpre q hq
    omega

/-- Witness for C6's amended theorem: a capacity-3 cache whose second
entry is the unique least-hit one; inserting a fourth key evicts it. -/
theorem cacheSet_evicts_first_least_hit_witness :
    ((cacheAtCap.entries.map Prod.fst).Nodup ∧
     cacheAtCap.entries.length = cacheAtCap.maxSize ∧
     findEntry cacheAtCap.entries "d" = none ∧
     firstMinPair cacheAtCap.entries = some ("b", ⟨resp0, 5, 1⟩)) ∧
    findEntry (CommitCache.set cacheAtCap "d" resp0 9).entries "b" = none ∧
    (CommitCache.set cacheAtCap "d" resp0 9).entries.length = cacheAtCap.maxSize := by
  refine ⟨⟨by decide, by decide, by decide, by decide⟩, ?_, ?_⟩
  · exact (cacheSet_evicts_first_least_hit cacheAtCap "d" resp0 9 "b" ⟨resp0, 5, 1⟩
      (by decide) (by decide) (by decide) (by decide) (by decide)).2.2.1
  · exact (cacheSet_evicts_first_least_hit cacheAtCap "d" resp0 9 "b" ⟨resp0, 5, 1⟩
      (by decide) (by decide) (by decide) (by decide) (by decide)).2.1

/-! ## Claim C7 -/

/-- C7: `set(k, r)` followed by `get(k)` within the TTL returns `r`; the
entry starts at `hitCount` 1 on insertion, reads back with `hitCount` 2
after the hit, and its timestamp is refreshed to the read time. -/
theorem cache_set_get_roundtrip (c : CommitCache) (k : String) (r : LLMResponse)
    (t tGet : Nat) (hlive : tGet - t ≤ c.ttlMs) :
    findEntry (CommitCache.set c k r t).entries k = some ⟨r, t, 1⟩
    ∧ (CommitCache.get (CommitCache.set c k r t) k tGet).1 = some r
    ∧ findEntry (CommitCache.get (CommitCache.set c k r t) k tGet).2.entries k =
        some ⟨r, tGet, 2⟩ := by
  have hset : findEntry (CommitCache.set c k r t).entries k = some ⟨r, t, 1⟩ := by
    unfold CommitCache.set
    exact findEntry_mapSet_self _ _ _
  have httl : (CommitCache.set c k r t).ttlMs = c.ttlMs := rfl
  refine ⟨hset, ?_, ?_⟩
  · unfold CommitCache.get
    rw [hset]
    simp only [httl]
    rw [if_neg (by omega)]
  · unfold CommitCache.get
    rw [hset]
    simp only [httl]
    rw [if_neg (by omega)]
    simp only
    exact findEntry_mapSet_self _ _ _

/-- Witness for C7 on the cold module cache at times 0 and 5. -/
theorem cache_set_get_roundtrip_witness :
    (5 - 0 ≤ commitCache0.ttlMs) ∧
    (CommitCache.get (CommitCache.set commitCache0 "k" resp0 0) "k" 5).1 = some resp0 := by
  exact ⟨by decide, (cache_set_get_roundtrip commitCache0 "k" resp0 0 5 (by decide)).2.1⟩

/-! ## Claim C8 -/

/-- C8 concerns validation the source does not perform: `parseDiff`'s
TypeScript body neither checks its argument's type nor bounds its size
(the repository's own code review lists both as missing).  Evaluating the
embedding at a 1,000,001-character input: `parseDiff` processes the whole
oversized string normally and returns an ordinary (empty) result instead
of failing fast. -/
theorem parseDiff_accepts_oversized_input :
    1000000 < oversizedDiff.length ∧ parseDiff oversizedDiff emptyOpts = [] := by
  constructor
  · have h : oversizedDiff.length = 1000001 := by
      show (List.replicate 1000001 'x').length = 1000001
      exact List.length_replicate 1000001 'x'
    omega
  · show parseDiff (String.mk (List.replicate 1000001 'x')) emptyOpts = []
    have h := parseDiff_all_x 1000000
    norm_num at h
    exact h

/-! ## Claim C9 -/

/-- Counterexample to C9: `generateCacheKey(["b", "a"], …)` leaves the
caller's array holding `["a", "b"]` — `files.sort()` mutates its argument
in place, so the files argument does not survive the call unchanged. -/
theorem generateCacheKey_mutates_files_counterexample :
    (generateCacheKeyJS ["b", "a"] "d").2 = ["a", "b"]
    ∧ (["a", "b"] : List String) ≠ ["b", "a"] := by
  exact ⟨by decide, by decide⟩

/-- C9 as amended: the template functions perform no I/O and compute
deterministically, but `generateCacheKey` sorts its `files` argument in
place: after the call the caller's array holds the lexicographically
sorted permutation of its previous contents.  The key is the sorted paths
joined with `|`, a `:`, and the first 100 characters of the diff with
whitespace runs collapsed — so any permutation of the same file list
yields the identical key. -/
theorem generateCacheKey_behaviour (files : List String) (diff : String) :
    (generateCacheKeyJS files diff).2 = jsSortStrings files
    ∧ (generateCacheKeyJS files diff).1 =
        joinSepStr "|" (jsSortStrings files) ++ ":" ++ diffPreview diff
    ∧ ∀ filesB, filesB.Perm files →
        (generateCacheKeyJS filesB diff).1 = (generateCacheKeyJS files diff).1 := by
  refine ⟨rfl, rfl, ?_⟩
  intro filesB hperm
  unfold generateCacheKeyJS
  rw [jsSortStrings_perm_eq filesB files hperm]

/-- Witness for C9's amended theorem: two orderings of the same pair of
paths produce the same key. -/
theorem generateCacheKey_behaviour_witness :
    List.Perm ["b", "a"] ["a", "b"] ∧
    (generateCacheKeyJS ["b", "a"] "d").1 = (generateCacheKeyJS ["a", "b"] "d").1 := by
  exact ⟨by decide, (generateCacheKey_behaviour ["a", "b"] "d").2.2 ["b", "a"] (by decide)⟩

/-! ## Claim C10 -/

/-- C10: `set` on a key already present overwrites the entry
unconditionally — afterwards its `hitCount` is 1 and its timestamp the
current time, whatever hit count the previous entry had accumulated — so a
re-written entry restarts as a least-frequently-used candidate. -/
theorem cache_set_overwrite_resets (c : CommitCache) (k : String)
    (rNew : LLMResponse) (t : Nat) (eOld : CacheEntry)
    (hpresent : findEntry c.entries k = some eOld) :
    findEntry (CommitCache.set c k rNew t).entries k = some ⟨rNew, t, 1⟩ := by
  unfold CommitCache.set
  exact findEntry_mapSet_self _ _ _

/-- Witness for C10: a present entry with accumulated `hitCount` 7 is
overwritten back to `hitCount` 1. -/
theorem cache_set_overwrite_resets_witness :
    findEntry cacheWithK.entries "k" = some ⟨resp0, 0, 7⟩ ∧
    findEntry (CommitCache.set cacheWithK "k" resp0 5).entries "k" = some ⟨resp0, 5, 1⟩ := by
  exact ⟨by decide, cache_set_overwrite_resets cacheWithK "k" resp0 5 ⟨resp0, 0, 7⟩ (by decide)⟩
